import Mathlib

/-
Verification of the FSA builder (Fsa.py): ASG, CTC and HMM acceptor
construction.  The Python class methods are embedded as pure Lean
functions; the mutable edge list of the class becomes explicit state
passing.  Labels are modelled by small inductive types; floating point
weights only ever take the exact values 0.0 and 1.0 (or are copied
through unchanged), so they are represented by rationals.  Fallible
steps (list indexing that can raise) return Option.
-/

/-- Labels occurring in ASG and CTC graphs: an integer label index, the
literal blank marker, and the epsilon placeholder (which these two
builders never actually produce, but which the shared self-loop
insertion tests for, mirroring the comparison with the placeholder
in the source). -/
inductive CLab where
  | sym : Nat → CLab
  | blank : CLab
  | eps : CLab
  deriving DecidableEq

/-- An ASG/CTC edge: start node, end node, label, weight. -/
structure CEdge where
  start : Nat
  stop : Nat
  lbl : CLab
  w : ℚ
  deriving DecidableEq

/-- One iteration of the scan loop of Fsa._check_for_repetitions_for_asg.
The state is (reps, rep_count, index_old). -/
def check_reps_step (rep nl : Nat) (s : List Nat × Nat × Option Nat) (index : Nat) :
    List Nat × Nat × Option Nat :=
  let reps := s.1
  let rc := s.2.1
  let old := s.2.2
  if some index = old then
    if rc < rep then (reps, rc + 1, some index)
    else if rc ≠ 0 then (reps ++ [nl + rc], 1, some index)
    else (reps, rc, some index)
  else
    if rc ≠ 0 then (reps ++ [nl + rc, index], 0, some index)
    else (reps ++ [index], 0, some index)

/-- Fsa._check_for_repetitions_for_asg: with asg_repetition = 0 the lemma
is passed through; otherwise the scan loop runs and the reps accumulator
is returned (any pending rep_count at the end of the scan is dropped). -/
def check_for_repetitions_for_asg (rep nl : Nat) (ls : List Nat) : List Nat :=
  if rep = 0 then ls
  else (ls.foldl (check_reps_step rep nl) ([], 0, none)).1

/-- Fsa._create_states_from_label_for_asg: one edge per folded label,
state i to state i + 1, weight 1. -/
def create_states_from_label_for_asg (reps : List Nat) : List CEdge :=
  (List.range reps.length).map (fun i => ⟨i, i + 1, CLab.sym (reps.getD i 0), 1⟩)

/-- The Python negative-index read self.lemma[label_index - 1]: at
position 0 it reads index -1, the last element of the sequence. -/
def py_pred (ls : List Nat) (i : Nat) : Nat :=
  if i = 0 then ls.getLastD 0 else ls.getD (i - 1) 0

/-- Fsa._create_states_from_label_seq_for_ctc: a skip edge (2i, 2i+2)
for every position whose label differs from its predecessor, where the
predecessor of position 0 is the last element (Python index -1). -/
def create_states_from_label_seq_for_ctc (ls : List Nat) : List CEdge :=
  (List.range ls.length).filterMap fun i =>
    if ls.getD i 0 ≠ py_pred ls i then
      some ⟨2 * i, 2 * i + 2, CLab.sym (ls.getD i 0), 1⟩
    else none

/-- Fsa._adds_blank_states_for_ctc, edge part: a blank edge
(2i, 2i+1) and a label edge (2i+1, 2i+2) per position. -/
def adds_blank_states_for_ctc (ls : List Nat) : List CEdge :=
  (List.range ls.length).flatMap fun i =>
    [⟨2 * i, 2 * i + 1, CLab.blank, 1⟩,
     ⟨2 * i + 1, 2 * i + 2, CLab.sym (ls.getD i 0), 1⟩]

/-- Fsa._adds_blank_states_for_ctc, final-state part: label_blank_idx + 1
after the loop (label_blank_idx stays 0 when the lemma is empty). -/
def ctc_final_after_blank (ls : List Nat) : Nat :=
  (if ls.length = 0 then 0 else 2 * (ls.length - 1) + 1) + 1

/-- The CTC state allocation of Fsa.run: num_states = 2 * (n + 1) - 1. -/
def ctc_num_states_alloc (ls : List Nat) : Nat := 2 * (ls.length + 1) - 1

/-- The CTC edge list after skip-edge creation and blank insertion,
before the final three-state extension. -/
def ctc_pre_extension (ls : List Nat) : List CEdge :=
  create_states_from_label_seq_for_ctc ls ++ adds_blank_states_for_ctc ls

/-- Fsa._adds_last_state_for_ctc, edge part: with i the current
num_states, append (i-3, i, blank), (i, i+1, last label), (i+1, i+2, blank). -/
def adds_last_state_for_ctc (ls : List Nat) : List CEdge :=
  let i := ctc_num_states_alloc ls
  ctc_pre_extension ls ++
    [⟨i - 3, i, CLab.blank, 1⟩,
     ⟨i, i + 1, CLab.sym (ls.getLastD 0), 1⟩,
     ⟨i + 1, i + 2, CLab.blank, 1⟩]

/-- num_states after the three-state extension of Fsa._adds_last_state_for_ctc. -/
def ctc_num_states_after_ext (ls : List Nat) : Nat := ctc_num_states_alloc ls + 3

/-- The loop of Fsa._adds_loop_edges over the states: for each state the
first edge ending there with a non-epsilon label donates the loop label;
when no such edge exists the source raises (IndexError on
edges_included[0] outside the try block), modelled by none. -/
def adds_loop_edges_go : List CEdge → List Nat → Option (List CEdge)
  | edges, [] => some edges
  | edges, s :: rest =>
    match edges.filter (fun e => decide (e.stop = s ∧ e.lbl ≠ CLab.eps)) with
    | [] => none
    | e0 :: _ => adds_loop_edges_go (edges ++ [⟨s, s, e0.lbl, 0⟩]) rest

/-- Fsa._adds_loop_edges for the ASG/CTC case: loops on states
1 .. countloops - 1 where countloops = num_states. -/
def adds_loop_edges (countloops : Nat) (edges : List CEdge) : Option (List CEdge) :=
  adds_loop_edges_go edges (List.range' 1 (countloops - 1))

/-- The loop of Fsa._make_single_final_state over the final states: for
each final state, duplicates of all edges currently ending there are
appended, retargeted to the new final node nf, with weight 1. -/
def merge_go (nf : Nat) : List CEdge → List Nat → List CEdge
  | edges, [] => edges
  | edges, f :: rest =>
    merge_go nf
      (edges ++ (edges.filter (fun e => decide (e.stop = f))).map
        (fun e => ⟨e.start, nf, e.lbl, 1⟩)) rest

/-- Fsa._make_single_final_state: no-op when the final-state list is the
singleton [num_states - 1]; otherwise num_states is incremented and
every edge ending in a final state is duplicated towards the new final
node num_states - 1. -/
def make_single_final_state (num : Nat) (finals : List Nat) (edges : List CEdge) :
    Nat × List CEdge :=
  if finals.length = 1 ∧ finals.getD 0 0 = num - 1 then (num, edges)
  else (num + 1, merge_go (num + 1 - 1) edges finals)

/-- The end-to-end ASG branch of Fsa.run: repetition folding, linear
chain construction, self-loop insertion. -/
def asg_run (rep nl : Nat) (ls : List Nat) : Option (Nat × List CEdge) :=
  let reps := check_for_repetitions_for_asg rep nl ls
  let num := reps.length + 1
  (adds_loop_edges num (create_states_from_label_for_asg reps)).map
    (fun es => (num, es))

/-- The end-to-end CTC branch of Fsa.run: skip edges, blank insertion,
three-state extension, self-loop insertion, final-state merging. -/
def ctc_run (ls : List Nat) : Option (Nat × List CEdge) :=
  let ns1 := ctc_num_states_after_ext ls
  let finals := [ctc_final_after_blank ls, ns1 - 1]
  (adds_loop_edges ns1 (adds_last_state_for_ctc ls)).map
    (fun e4 => make_single_final_state ns1 finals e4)

/-- All outgoing edges of state s are self-loops (vacuously true when s
has no outgoing edge at all). -/
def only_self_loops_at (edges : List CEdge) (s : Nat) : Prop :=
  ∀ e ∈ edges, e.start = s → e.stop = s

/-- The invariant of the spec for finished ASG/CTC graphs: every edge
runs from a lower to a higher (or equal) node, and among the states of
the graph exactly one, the final state num_states - 1, has no outgoing
edge other than its own self-loop. -/
def unique_final_invariant (g : Nat × List CEdge) : Prop :=
  (∀ e ∈ g.2, e.start ≤ e.stop) ∧
  ∀ s, s < g.1 → (only_self_loops_at g.2 s ↔ s = g.1 - 1)

/-
Node renumbering (Fsa._sort_node_num / Fsa._find_node_edges).  The edge
lists it runs on are heterogeneous Python lists whose index 2 holds the
label; the procedure can overwrite that slot with a node number, so the
label slot is a sum of the original label type and Nat.  The extra
payload of an edge (weight, position tag, ...) is a type parameter. -/

/-- An edge as seen by the node renumbering procedure. -/
structure REdge (α ρ : Type) where
  start : Nat
  stop : Nat
  lbl : α ⊕ Nat
  rest : ρ
  deriving DecidableEq

/-- Assignment edges[k][pos] = v of the source: position 0 is the start
node, position 1 the end node, position 2 the label slot. -/
def apply_at {α ρ : Type} (e : REdge α ρ) (pos : Nat) (v : Nat) : REdge α ρ :=
  if pos = 0 then { e with start := v }
  else if pos = 1 then { e with stop := v }
  else { e with lbl := Sum.inr v }

/-- The dict value of Fsa._find_node_edges for an edge touching node x:
2 when both endpoints are x, else 1 when the end is x, else 0. -/
def find_pos {α ρ : Type} (x : Nat) (e : REdge α ρ) : Nat :=
  if e.start = x ∧ e.stop = x then 2 else if e.stop = x then 1 else 0

/-- Whether an edge occurs in the dict of Fsa._find_node_edges for x. -/
def node_touches {α ρ : Type} (x : Nat) (e : REdge α ρ) : Bool :=
  e.start = x || e.stop = x

/-- The relabeling body of Fsa._sort_node_num for an inverted edge
(a, b): first every edge touching a gets b written at its dict position,
then every edge touching b (positions taken from the original list, as
the source computes both dicts before mutating) gets a written. -/
def exchange_nodes {α ρ : Type} (a b : Nat) (edges : List (REdge α ρ)) :
    List (REdge α ρ) :=
  edges.map fun o =>
    let e1 := if node_touches a o then apply_at o (find_pos a o) b else o
    if node_touches b o then apply_at e1 (find_pos b o) a else e1

/-- The while loop of Fsa._sort_node_num with explicit fuel: on an
inverted edge the node ids are exchanged and idx is reset to 0 and then
incremented, so the next scan starts at index 1. -/
def sort_go {α ρ : Type} : Nat → Nat → List (REdge α ρ) → Option (List (REdge α ρ))
  | 0, _, _ => none
  | fuel + 1, idx, edges =>
    match edges[idx]? with
    | none => some edges
    | some e =>
      if e.stop < e.start then sort_go fuel 1 (exchange_nodes e.start e.stop edges)
      else sort_go fuel (idx + 1) edges

/-- Fsa._sort_node_num. -/
def sort_node_num {α ρ : Type} (fuel : Nat) (edges : List (REdge α ρ)) :
    Option (List (REdge α ρ)) :=
  sort_go fuel 0 edges

/-- Exchange of the two node-identifier values a and b at one id. -/
def swap_id (a b x : Nat) : Nat := if x = a then b else if x = b then a else x

/-- The relabeling described by the spec sentence of claim C2: both
endpoints of every edge are relabeled through the exchange of a and b,
labels untouched. -/
def spec_exchange {α ρ : Type} (a b : Nat) (edges : List (REdge α ρ)) :
    List (REdge α ρ) :=
  edges.map fun e => { e with start := swap_id a b e.start, stop := swap_id a b e.stop }

/-- The fixpoint procedure described by the spec sentences of claim C2:
on an inverted edge exchange the node ids and restart the scan at the
first edge (index 0). -/
def spec_go {α ρ : Type} : Nat → Nat → List (REdge α ρ) → Option (List (REdge α ρ))
  | 0, _, _ => none
  | fuel + 1, idx, edges =>
    match edges[idx]? with
    | none => some edges
    | some e =>
      if e.stop < e.start then spec_go fuel 0 (spec_exchange e.start e.stop edges)
      else spec_go fuel (idx + 1) edges

/-- The renumbering procedure exactly as claim C2 states it. -/
def spec_renumber {α ρ : Type} (fuel : Nat) (edges : List (REdge α ρ)) :
    Option (List (REdge α ρ)) :=
  spec_go fuel 0 edges

/-- The amended relabeling: endpoints are exchanged, except that an edge
whose both endpoints equal one of the two exchanged ids keeps its
endpoints and has its label slot overwritten with the other id. -/
def amended_exchange {α ρ : Type} (a b : Nat) (edges : List (REdge α ρ)) :
    List (REdge α ρ) :=
  edges.map fun e =>
    if e.start = a ∧ e.stop = a then { e with lbl := Sum.inr b }
    else if e.start = b ∧ e.stop = b then { e with lbl := Sum.inr a }
    else { e with start := swap_id a b e.start, stop := swap_id a b e.stop }

/-- The amended fixpoint procedure of claim C2: amended relabeling, and
after a relabeling the scan resumes at the second edge (index 1). -/
def amended_go {α ρ : Type} : Nat → Nat → List (REdge α ρ) → Option (List (REdge α ρ))
  | 0, _, _ => none
  | fuel + 1, idx, edges =>
    match edges[idx]? with
    | none => some edges
    | some e =>
      if e.stop < e.start then amended_go fuel 1 (amended_exchange e.start e.stop edges)
      else amended_go fuel (idx + 1) edges

/-- The renumbering procedure as claim C2 must be amended to. -/
def amended_renumber {α ρ : Type} (fuel : Nat) (edges : List (REdge α ρ)) :
    Option (List (REdge α ρ)) :=
  amended_go fuel 0 edges

/-- Labels of the HMM lemma acceptor: a word, silence, epsilon. -/
inductive HLab where
  | word : String → HLab
  | sil : HLab
  | eps : HLab
  deriving DecidableEq

/-- An edge of the HMM lemma acceptor. -/
structure HEdge where
  start : Nat
  stop : Nat
  lbl : HLab
  w : ℚ
  deriving DecidableEq

/-- Fsa._lemma_acceptor_for_hmm_fsa: for each word one word edge
(2wi+1, 2wi+2), flanked by a silence and an epsilon edge after it (and
also before it for the first word), with num_states counted up once per
appended silence/epsilon edge. -/
def lemma_acceptor_for_hmm_fsa (words : List String) : Nat × List HEdge :=
  (List.range words.length).foldl
    (fun (acc : Nat × List HEdge) wi =>
      let first := 2 * (wi + 1) - 1
      let last := first + 1
      let acc1 : Nat × List HEdge :=
        (acc.1, acc.2 ++ [⟨first, last, HLab.word (words.getD wi ""), 0⟩])
      [HLab.sil, HLab.eps].foldl
        (fun (a : Nat × List HEdge) i =>
          let a1 : Nat × List HEdge :=
            if wi = 0 then (a.1 + 1, a.2 ++ [⟨first - 1, last - 1, i, 0⟩]) else a
          (a1.1 + 1, a1.2 ++ [⟨first + 1, last + 1, i, 0⟩]))
        acc1)
    (0, [])

/-- An atom of an allophone-stage label: a phoneme string of the
triphone list, or the appended sub-state index. -/
inductive AAtom where
  | ph : String → AAtom
  | st : Nat → AAtom
  deriving DecidableEq

/-- Labels at the allophone-state stage: the triphone list coming from
the triphone acceptor, silence, epsilon. -/
inductive ALab where
  | tri : List AAtom → ALab
  | sil : ALab
  | eps : ALab
  deriving DecidableEq

/-- An edge at the allophone-state stage: label slot as renumbering sees
it, payload (score, position tag). -/
abbrev AEdge := REdge ALab (ℚ × String)

/-- edge_label = list(edge[2]); edge_label.append(state): the sub-state
index appended to the triphone list. -/
def allo_append_state (l : ALab ⊕ Nat) (s : Nat) : ALab ⊕ Nat :=
  match l with
  | Sum.inl (ALab.tri atoms) => Sum.inl (ALab.tri (atoms ++ [AAtom.st s]))
  | x => x

/-- The silence/epsilon test of the allophone-state acceptor. -/
def allo_is_sil_or_eps (l : ALab ⊕ Nat) : Bool :=
  l = Sum.inl ALab.sil || l = Sum.inl ALab.eps

/-- The expansion loop of Fsa._allophone_state_acceptor_for_hmm_fsa
(before the final node renumbering): silence/epsilon edges pass through;
any other edge is expanded only when allo_num_states > 1, with the first
sub-edge ending at a fresh node, middle sub-edges at the last allocated
node pair, and the final sub-edge starting at the next fresh node. -/
def allophone_expand (ans : Nat) (numStates : Nat) (edges : List AEdge) :
    Nat × List AEdge :=
  edges.foldl
    (fun (acc : Nat × List AEdge) e =>
      if allo_is_sil_or_eps e.lbl then (acc.1, acc.2 ++ [e])
      else if 1 < ans then
        (List.range ans).foldl
          (fun (acc2 : Nat × List AEdge) s =>
            let lbl1 := allo_append_state e.lbl s
            if s = 0 then
              (acc2.1 + 1, acc2.2 ++ [⟨e.start, acc2.1, lbl1, e.rest⟩])
            else if s = ans - 1 then
              (acc2.1 + 1, acc2.2 ++ [⟨acc2.1, e.stop, lbl1, e.rest⟩])
            else
              (acc2.1, acc2.2 ++ [⟨acc2.1 - 1, acc2.1, lbl1, e.rest⟩]))
          acc
      else (acc.1, acc.2))
    (numStates, [])

/-- Fsa._allophone_state_acceptor_for_hmm_fsa: expansion followed by
node renumbering of the produced edge list. -/
def allophone_state_acceptor_for_hmm_fsa (fuel ans numStates : Nat)
    (edges : List AEdge) : Option (Nat × List AEdge) :=
  let p := allophone_expand ans numStates edges
  (sort_node_num fuel p.2).map (fun es => (p.1, es))

/-- The three sub-edge chain the amended claim C4 describes for one
non-silence edge, interior nodes ns and ns + 1. -/
def allo_chain3 (ns : Nat) (e : AEdge) : List AEdge :=
  [⟨e.start, ns, allo_append_state e.lbl 0, e.rest⟩,
   ⟨ns, ns + 1, allo_append_state e.lbl 1, e.rest⟩,
   ⟨ns + 1, e.stop, allo_append_state e.lbl 2, e.rest⟩]

/-- The expansion as the amended claim C4 words it for
allo_num_states = 3: silence/epsilon edges pass through unchanged, every
other edge becomes a connected chain of three sub-edges with sub-state
indices 0, 1, 2 in order, consuming two fresh interior states. -/
def allo_spec_expand3 : Nat → List AEdge → Nat × List AEdge
  | ns, [] => (ns, [])
  | ns, e :: es =>
    if allo_is_sil_or_eps e.lbl then
      let p := allo_spec_expand3 ns es
      (p.1, e :: p.2)
    else
      let p := allo_spec_expand3 (ns + 2) es
      (p.1, allo_chain3 ns e ++ p.2)

/-- Claim C8: with asg_repetition = 0, repetition folding is the
identity on the label sequence, and in particular introduces no label
that was not already in the input (no synthetic repeat label). -/
theorem asg_folding_zero_identity (nl : Nat) (ls : List Nat) :
    check_for_repetitions_for_asg 0 nl ls = ls ∧
    ∀ x ∈ check_for_repetitions_for_asg 0 nl ls, x ∈ ls := by
  constructor <;> simp [check_for_repetitions_for_asg]

/-- Counterexample for claim C5: the lemma acceptor on the one-word
sequence cat yields num_states = 4, not 2 * len(words) + 1 = 3 as the
claim states. -/
theorem lemma_acceptor_cat_num_states_cx :
    (lemma_acceptor_for_hmm_fsa ["cat"]).1 = 4 ∧ (4 : Nat) ≠ 2 * 1 + 1 := by
  decide

/-- Claim C5 as amended: the lemma acceptor on cat produces exactly one
word edge (1, 2, cat) bracketed by the parallel silence/epsilon pairs
(0,1) and (2,3) at the sequence boundaries, and num_states is
2 * len(words) + 2 = 4 (not 2 * len(words) + 1). -/
theorem lemma_acceptor_cat_graph :
    lemma_acceptor_for_hmm_fsa ["cat"] =
      (2 * 1 + 2,
       [⟨1, 2, HLab.word "cat", 0⟩,
        ⟨0, 1, HLab.sil, 0⟩, ⟨2, 3, HLab.sil, 0⟩,
        ⟨0, 1, HLab.eps, 0⟩, ⟨2, 3, HLab.eps, 0⟩]) := by
  decide

/-- A triphone-labeled edge used as concrete input for claim C4. -/
def allo_cx_edge : AEdge :=
  ⟨0, 1, Sum.inl (ALab.tri [AAtom.ph "a", AAtom.ph "b", AAtom.ph "c"]), (1, "if")⟩

/-- Counterexample for claim C4: with allo_num_states = 2 (positive) the
acceptor turns the single non-silence edge (0, 1) of a 2-state graph
into the two disconnected sub-edges (0, 2) and (1, 3) and allocates two
fresh states (num_states 4), not the connected chain with exactly
allo_num_states - 1 = 1 fresh interior state (which would give 3). -/
theorem allophone_acceptor_two_state_cx :
    allophone_state_acceptor_for_hmm_fsa 100 2 2 [allo_cx_edge] =
      some (4,
        [⟨0, 2, allo_append_state allo_cx_edge.lbl 0, (1, "if")⟩,
         ⟨1, 3, allo_append_state allo_cx_edge.lbl 1, (1, "if")⟩]) ∧
    (4 : Nat) ≠ 2 + (2 - 1) := by
  constructor
  · rfl
  · decide

/-- Concrete edge list for the claim C2 counterexample. -/
def c2_cx_edges : List (REdge Nat Unit) :=
  [⟨1, 2, Sum.inl 0, ()⟩, ⟨3, 1, Sum.inl 1, ()⟩]

/-- Counterexample for claim C2: on the edge list
[(1, 2), (3, 1)] the source procedure returns [(3, 2), (1, 3)] (the
exchange of 3 and 1 makes the first edge inverted, and the scan resumes
at index 1, never rechecking it), while the procedure described by the
claim restarts at the first edge and returns [(2, 3), (1, 2)]. -/
theorem sort_node_num_ne_spec_renumber :
    sort_node_num 100 c2_cx_edges = some [⟨3, 2, Sum.inl 0, ()⟩, ⟨1, 3, Sum.inl 1, ()⟩] ∧
    spec_renumber 100 c2_cx_edges = some [⟨2, 3, Sum.inl 0, ()⟩, ⟨1, 2, Sum.inl 1, ()⟩] ∧
    sort_node_num 100 c2_cx_edges ≠ spec_renumber 100 c2_cx_edges := by
  refine ⟨rfl, rfl, ?_⟩
  decide

/-- Concrete edge list for the claim C7 counterexample. -/
def c7_cx_edges : List (REdge Nat Unit) :=
  [⟨1, 2, Sum.inl 0, ()⟩, ⟨3, 1, Sum.inl 1, ()⟩]

/-- The output of node renumbering on c7_cx_edges, which still holds an
inverted first edge. -/
def c7_cx_out : List (REdge Nat Unit) :=
  [⟨3, 2, Sum.inl 0, ()⟩, ⟨1, 3, Sum.inl 1, ()⟩]

/-- Counterexample for claim C7: node renumbering is not idempotent; on
[(1, 2), (3, 1)] the first run returns [(3, 2), (1, 3)] and a second
run changes this output again (to [(2, 3), (1, 2)]). -/
theorem sort_node_num_not_idempotent_cx :
    sort_node_num 100 c7_cx_edges = some c7_cx_out ∧
    sort_node_num 100 c7_cx_out ≠ some c7_cx_out := by
  refine ⟨rfl, ?_⟩
  decide

/-- Counterexample for claim C6: for the label sequence ab (length 2,
no repeats) the edge count before the final three-state extension is 6,
which does not match the formula 2 * (n + 1) - 1 = 5 the claim asserts
for it. -/
theorem ctc_ab_edge_count_cx :
    (ctc_pre_extension [0, 1]).length = 6 ∧ (6 : Nat) ≠ 2 * (2 + 1) - 1 := by
  decide

/-- The predecessor read at position 0 is the last element. -/
theorem py_pred_zero (ls : List Nat) : py_pred ls 0 = ls.getLastD 0 := by
  simp [py_pred]

/-- Claim C9: the CTC skip-edge stage compares position 0 with the last
label of the sequence (Python index -1): when the first label equals the
last no skip edge leaves state 0, and otherwise the skip edge
(0, 2, first label) is emitted. -/
theorem ctc_skip_edge_position_zero (ls : List Nat) (h : ls ≠ []) :
    (ls.getD 0 0 = ls.getLastD 0 →
      ∀ e ∈ create_states_from_label_seq_for_ctc ls, e.start ≠ 0) ∧
    (ls.getD 0 0 ≠ ls.getLastD 0 →
      (⟨0, 2, CLab.sym (ls.getD 0 0), 1⟩ : CEdge) ∈
        create_states_from_label_seq_for_ctc ls) := by
  constructor
  · intro heq e he
    simp only [create_states_from_label_seq_for_ctc, List.mem_filterMap,
      List.mem_range] at he
    obtain ⟨i, hi, hsome⟩ := he
    rcases Nat.eq_zero_or_pos i with hz | hp
    · subst hz
      rw [if_neg] at hsome
      · cases hsome
      · rw [py_pred_zero]
        exact not_not_intro heq
    · by_cases hc : ls.getD i 0 ≠ py_pred ls i
      · rw [if_pos hc] at hsome
        cases hsome
        show 2 * i ≠ 0
        omega
      · rw [if_neg hc] at hsome
        cases hsome
  · intro hne
    simp only [create_states_from_label_seq_for_ctc, List.mem_filterMap,
      List.mem_range]
    refine ⟨0, List.length_pos.mpr h, ?_⟩
    have hc : ls.getD 0 0 ≠ py_pred ls 0 := by
      rw [py_pred_zero]; exact hne
    rw [if_pos hc]

/-- Witness for claim C9 at the concrete sequence [1, 2]. -/
theorem ctc_skip_edge_position_zero_witness :
    ([1, 2] : List Nat) ≠ [] ∧
    (⟨0, 2, CLab.sym 1, 1⟩ : CEdge) ∈ create_states_from_label_seq_for_ctc [1, 2] :=
  ⟨by decide, (ctc_skip_edge_position_zero [1, 2] (by decide)).2 (by decide)⟩

/-- Every branch of the scan step stores the current index in index_old. -/
theorem check_reps_step_old (rep nl : Nat) (s : List Nat × Nat × Option Nat) (i : Nat) :
    (check_reps_step rep nl s i).2.2 = some i := by
  simp only [check_reps_step]
  split_ifs <;> rfl

/-- After scanning a non-empty list, index_old is its last element. -/
theorem check_reps_old (rep nl : Nat) :
    ∀ (ws : List Nat) (s : List Nat × Nat × Option Nat), ws ≠ [] →
      (ws.foldl (check_reps_step rep nl) s).2.2 = ws.getLast? := by
  intro ws
  induction ws with
  | nil => intro s h; cases h rfl
  | cons w t ih =>
    intro s _
    rcases eq_or_ne t [] with ht | ht
    · subst ht
      simp only [List.foldl_cons, List.foldl_nil, List.getLast?_singleton]
      exact check_reps_step_old rep nl s w
    · rw [List.foldl_cons, ih _ ht]
      obtain ⟨b, t2, rfl⟩ := List.exists_cons_of_ne_nil ht
      rw [List.getLast?_cons_cons]

/-- Scanning a label different from index_old always resets rep_count
to 0 and records the label. -/
theorem check_reps_step_fresh (rep nl : Nat) (s : List Nat × Nat × Option Nat) (a : Nat)
    (h : s.2.2 ≠ some a) :
    ∃ R, check_reps_step rep nl s a = (R, 0, some a) := by
  have hne : ¬ some a = s.2.2 := fun hh => h hh.symm
  by_cases h2 : s.2.1 = 0
  · exact ⟨s.1 ++ [a], by simp [check_reps_step, hne, h2]⟩
  · exact ⟨s.1 ++ [nl + s.2.1, a], by simp [check_reps_step, hne, h2]⟩

/-- Scanning k further copies of the recorded label from a rep_count
already inside the current chunk (1 <= rc <= asg_repetition): a
synthetic label nl + rep is emitted each time a repeat arrives on a
saturated counter, and the final partial chunk stays pending in the
counter, never emitted. -/
theorem check_reps_run (rep nl a : Nat) (hrep : 0 < rep) :
    ∀ (k rc : Nat) (R : List Nat), 1 ≤ rc → rc ≤ rep →
      (List.replicate k a).foldl (check_reps_step rep nl) (R, rc, some a) =
        (R ++ List.replicate ((rc + k - 1) / rep) (nl + rep),
          (rc + k - 1) % rep + 1, some a) := by
  intro k
  induction k with
  | zero =>
    intro rc R h1 h2
    have hd : (rc - 1) / rep = 0 := Nat.div_eq_of_lt (by omega)
    have hm : (rc - 1) % rep = rc - 1 := Nat.mod_eq_of_lt (by omega)
    simp [hd, hm]
    omega
  | succ k ih =>
    intro rc R h1 h2
    rw [List.replicate_succ, List.foldl_cons]
    by_cases hlt : rc < rep
    · have hstep : check_reps_step rep nl (R, rc, some a) a = (R, rc + 1, some a) := by
        simp [check_reps_step, hlt]
      rw [hstep, ih (rc + 1) R (by omega) (by omega)]
      have e1 : rc + 1 + k - 1 = rc + (k + 1) - 1 := by omega
      rw [e1]
    · have hrc : rc = rep := by omega
      have hlt2 : ¬ rep < rep := by omega
      have hne2 : rep ≠ 0 := by omega
      have hstep : check_reps_step rep nl (R, rc, some a) a =
          (R ++ [nl + rep], 1, some a) := by
        rw [hrc]
        simp [check_reps_step, hlt2, hne2]
      rw [hstep, ih 1 (R ++ [nl + rep]) (by omega) (by omega)]
      have e1 : 1 + k - 1 = k := by omega
      have e2 : rc + (k + 1) - 1 = k + rep := by omega
      rw [e1, e2, Nat.add_div_right _ hrep, Nat.add_mod_right,
        List.append_assoc, List.singleton_append, ← List.replicate_succ]

/-- Claim C10: a repetition run that ends exactly at the end of the
input leaves its pending count unemitted: when the input ends with k
further repeats (any k >= 1) of a label a that the preceding part does
not end in, the folded output is the output for the truncated input
followed by exactly the (k - 1) / asg_repetition full-chunk labels
nl + asg_repetition flushed inside the run, while the final partial
chunk is still pending in the nonzero repetition counter when the scan
finishes and contributes no synthetic label; in particular [a, a] folds
to [a]. -/
theorem asg_trailing_repeats_unemitted (rep nl k : Nat) (ws : List Nat) (a : Nat)
    (hrep : 0 < rep) (hk1 : 1 ≤ k) (hws : ws.getLast? ≠ some a) :
    check_for_repetitions_for_asg rep nl (ws ++ a :: List.replicate k a) =
      check_for_repetitions_for_asg rep nl (ws ++ [a]) ++
        List.replicate ((k - 1) / rep) (nl + rep) ∧
    ((ws ++ a :: List.replicate k a).foldl (check_reps_step rep nl)
      ([], 0, none)).2.1 ≠ 0 := by
  have hne : ¬ rep = 0 := by omega
  have hold : (ws.foldl (check_reps_step rep nl) ([], 0, none)).2.2 ≠ some a := by
    rcases eq_or_ne ws [] with hw | hw
    · subst hw; simp
    · rw [check_reps_old rep nl ws ([], 0, none) hw]; exact hws
  obtain ⟨R, hR⟩ := check_reps_step_fresh rep nl _ a hold
  obtain ⟨j, rfl⟩ : ∃ j, k = j + 1 := ⟨k - 1, by omega⟩
  have hws1 : (ws ++ [a]).foldl (check_reps_step rep nl) ([], 0, none)
      = (R, 0, some a) := by
    rw [List.foldl_append]
    simp only [List.foldl_cons, List.foldl_nil]
    exact hR
  have hstep1 : check_reps_step rep nl (R, 0, some a) a = (R, 1, some a) := by
    simp [check_reps_step, hrep]
  have hfold : (ws ++ a :: List.replicate (j + 1) a).foldl (check_reps_step rep nl)
      ([], 0, none) =
      (R ++ List.replicate (j / rep) (nl + rep), j % rep + 1, some a) := by
    have hsplit : ws ++ a :: List.replicate (j + 1) a
        = (ws ++ [a]) ++ (a :: List.replicate j a) := by
      rw [List.replicate_succ]
      simp
    rw [hsplit, List.foldl_append, hws1]
    simp only [List.foldl_cons]
    rw [hstep1, check_reps_run rep nl a hrep j 1 R (by omega) (by omega)]
    have e1 : 1 + j - 1 = j := by omega
    rw [e1]
  constructor
  · unfold check_for_repetitions_for_asg
    rw [if_neg hne, if_neg hne, hfold, hws1]
    have e2 : j + 1 - 1 = j := by omega
    rw [e2]
  · rw [hfold]
    dsimp only
    omega

/-- Witness for claim C10: with asg_repetition = 1, num_labels = 27, the
input [0, 0, 0] (two trailing repeats, more than one chunk) folds to
[0, 28]: one full-chunk label 28 for the first repeat, while the final
pending repeat is dropped; and [0, 0] folds to [0]. -/
theorem asg_trailing_repeats_unemitted_witness :
    (0 : Nat) < 1 ∧ (1 : Nat) ≤ 2 ∧
      ([] : List Nat).getLast? ≠ some 0 ∧
      (check_for_repetitions_for_asg 1 27 ([] ++ 0 :: List.replicate 2 0) =
        check_for_repetitions_for_asg 1 27 ([] ++ [0]) ++
          List.replicate ((2 - 1) / 1) (27 + 1) ∧
        (([] ++ 0 :: List.replicate 2 0).foldl (check_reps_step 1 27)
          ([], 0, none)).2.1 ≠ 0) ∧
      check_for_repetitions_for_asg 1 27 [0, 0, 0] = [0, 28] ∧
      check_for_repetitions_for_asg 2 27 [0, 0] = [0] :=
  ⟨by decide, by decide, by decide,
    asg_trailing_repeats_unemitted 1 27 2 [] 0 (by decide) (by decide) (by decide),
    by decide, by decide⟩

/-- For distinct node ids a and b, the two sequential relabeling passes
of the source (first writing b at the dict positions of a, then writing
a at the original dict positions of b) coincide with the amended
exchange: endpoint swap, except that a self-loop at a or b keeps its
endpoints and gets its label slot overwritten. -/
theorem exchange_nodes_eq_amended {α ρ : Type} (a b : Nat) (hab : a ≠ b)
    (edges : List (REdge α ρ)) :
    exchange_nodes a b edges = amended_exchange a b edges := by
  simp only [exchange_nodes, amended_exchange]
  apply List.map_congr_left
  intro o _
  by_cases h1 : o.start = a <;> by_cases h2 : o.stop = a <;>
    by_cases h3 : o.start = b <;> by_cases h4 : o.stop = b <;>
    simp_all [node_touches, apply_at, find_pos, swap_id]

/-- The scan loops of the source procedure and of the amended procedure
agree for every fuel, index and edge list. -/
theorem sort_go_eq_amended {α ρ : Type} :
    ∀ (fuel idx : Nat) (edges : List (REdge α ρ)),
      sort_go fuel idx edges = amended_go fuel idx edges := by
  intro fuel
  induction fuel with
  | zero => intro idx edges; rfl
  | succ f ih =>
    intro idx edges
    rcases hE : edges[idx]? with _ | e
    · simp only [sort_go, amended_go, hE]
    · simp only [sort_go, amended_go, hE]
      by_cases hlt : e.stop < e.start
      · rw [if_pos hlt, if_pos hlt,
          exchange_nodes_eq_amended e.start e.stop (by omega) edges]
        exact ih 1 _
      · rw [if_neg hlt, if_neg hlt]
        exact ih (idx + 1) edges

/-- Claim C2 as amended: the source renumbering equals the exchange
based fixpoint procedure amended in two points forced by the
counterexample: after every relabeling the scan resumes from the second
edge (index 1) instead of the first, and an edge carrying the same id at
both endpoints keeps its endpoints while its label slot is overwritten
with the other exchanged id. -/
theorem sort_node_num_matches_amended_spec {α ρ : Type} (fuel : Nat)
    (edges : List (REdge α ρ)) :
    sort_node_num fuel edges = amended_renumber fuel edges :=
  sort_go_eq_amended fuel 0 edges

/-- On an edge list without inverted edges the scan loop runs to the end
without any relabeling, given enough fuel for the remaining positions. -/
theorem sort_go_no_inversion {α ρ : Type} :
    ∀ (fuel idx : Nat) (edges : List (REdge α ρ)),
      (∀ e ∈ edges, e.start ≤ e.stop) → edges.length - idx < fuel →
      sort_go fuel idx edges = some edges := by
  intro fuel
  induction fuel with
  | zero => intro idx edges h hf; omega
  | succ f ih =>
    intro idx edges h hf
    rcases hE : edges[idx]? with _ | e
    · simp only [sort_go, hE]
    · simp only [sort_go, hE]
      have he : e ∈ edges := List.getElem?_mem hE
      have hnl : ¬ e.stop < e.start := by
        have := h e he
        omega
      rw [if_neg hnl]
      apply ih (idx + 1) edges h
      have hidx : idx < edges.length := by
        by_contra hc
        push_neg at hc
        rw [List.getElem?_eq_none hc] at hE
        cases hE
      omega

/-- Claim C7 as amended: node renumbering is idempotent on
inversion-free outputs; whenever a run of the procedure returns an edge
list in which every edge satisfies from <= to, running the procedure on
that output (with fuel exceeding its length) returns it unchanged. -/
theorem sort_node_num_conditional_idempotent {α ρ : Type} (f f2 : Nat)
    (edges out : List (REdge α ρ))
    (h1 : sort_node_num f edges = some out)
    (h2 : ∀ e ∈ out, e.start ≤ e.stop)
    (h3 : out.length < f2) :
    sort_node_num f2 out = some out :=
  sort_go_no_inversion f2 0 out h2 (by omega)

/-- Concrete already-sorted edge list for the claim C7 witness. -/
def c7_wit_edges : List (REdge Nat Unit) := [⟨0, 1, Sum.inl 0, ()⟩]

/-- Witness for claim C7 as amended, at a concrete inversion-free list. -/
theorem sort_node_num_conditional_idempotent_witness :
    sort_node_num 5 c7_wit_edges = some c7_wit_edges :=
  sort_node_num_conditional_idempotent 5 5 c7_wit_edges c7_wit_edges (by decide)
    (by decide) (by decide)

/-- The expansion loop with allo_num_states = 3, run from any
accumulator, produces exactly the chains of allo_spec_expand3. -/
theorem allo_expand3_go : ∀ (es : List AEdge) (n : Nat) (acc : List AEdge),
    es.foldl
      (fun (acc : Nat × List AEdge) e =>
        if allo_is_sil_or_eps e.lbl then (acc.1, acc.2 ++ [e])
        else if 1 < 3 then
          (List.range 3).foldl
            (fun (acc2 : Nat × List AEdge) s =>
              let lbl1 := allo_append_state e.lbl s
              if s = 0 then
                (acc2.1 + 1, acc2.2 ++ [⟨e.start, acc2.1, lbl1, e.rest⟩])
              else if s = 3 - 1 then
                (acc2.1 + 1, acc2.2 ++ [⟨acc2.1, e.stop, lbl1, e.rest⟩])
              else
                (acc2.1, acc2.2 ++ [⟨acc2.1 - 1, acc2.1, lbl1, e.rest⟩]))
            acc
        else (acc.1, acc.2)) (n, acc) =
      ((allo_spec_expand3 n es).1, acc ++ (allo_spec_expand3 n es).2) := by
  intro es
  induction es with
  | nil => intro n acc; simp [allo_spec_expand3]
  | cons e es ih =>
    intro n acc
    rw [List.foldl_cons]
    by_cases hs : allo_is_sil_or_eps e.lbl
    · rw [if_pos hs]
      show es.foldl _ (n, acc ++ [e]) = _
      rw [ih n (acc ++ [e])]
      simp [allo_spec_expand3, hs, List.append_assoc]
    · have hstep : (List.range 3).foldl
          (fun (acc2 : Nat × List AEdge) s =>
            let lbl1 := allo_append_state e.lbl s
            if s = 0 then
              (acc2.1 + 1, acc2.2 ++ [⟨e.start, acc2.1, lbl1, e.rest⟩])
            else if s = 3 - 1 then
              (acc2.1 + 1, acc2.2 ++ [⟨acc2.1, e.stop, lbl1, e.rest⟩])
            else
              (acc2.1, acc2.2 ++ [⟨acc2.1 - 1, acc2.1, lbl1, e.rest⟩]))
          (n, acc) = (n + 2, acc ++ allo_chain3 n e) := by
        rw [show List.range 3 = [0, 1, 2] from rfl]
        simp only [List.foldl_cons, List.foldl_nil]
        norm_num [allo_chain3, List.append_assoc]
      rw [if_neg hs, if_pos (by norm_num : (1 : Nat) < 3), hstep,
        ih (n + 2) (acc ++ allo_chain3 n e)]
      simp [allo_spec_expand3, hs, List.append_assoc]

/-- The spec-side expansion allocates two fresh states per non-silence
edge. -/
theorem allo_spec_expand3_num : ∀ (es : List AEdge) (n : Nat),
    (allo_spec_expand3 n es).1 =
      n + 2 * es.countP (fun e => !allo_is_sil_or_eps e.lbl) := by
  intro es
  induction es with
  | nil => intro n; simp [allo_spec_expand3]
  | cons e es ih =>
    intro n
    by_cases hs : allo_is_sil_or_eps e.lbl
    · simp [allo_spec_expand3, hs, List.countP_cons, ih n]
    · simp only [allo_spec_expand3, hs, Bool.false_eq_true, if_false,
        List.countP_cons]
      rw [ih (n + 2)]
      simp [hs]
      omega

/-- Claim C4 as amended: with allo_num_states = 3 (the default, and the
only value for which the source loop builds what the claim describes),
the expansion part of the allophone-state acceptor replaces every
non-silence/non-epsilon edge by the connected chain of exactly three
sub-edges carrying the triphone label extended with sub-state indices
0, 1, 2 in order, inserting exactly two fresh interior states per
replaced edge, and passes silence/epsilon edges through unchanged; the
stage then applies node renumbering to this edge list.  num_states grows
by exactly 2 per replaced edge. -/
theorem allophone_expand_three_state_chain (numStates : Nat) (edges : List AEdge) :
    allophone_expand 3 numStates edges = allo_spec_expand3 numStates edges ∧
    (allophone_expand 3 numStates edges).1 =
      numStates + 2 * edges.countP (fun e => !allo_is_sil_or_eps e.lbl) := by
  have heq : allophone_expand 3 numStates edges = allo_spec_expand3 numStates edges := by
    unfold allophone_expand
    rw [allo_expand3_go edges numStates []]
    simp
  refine ⟨heq, ?_⟩
  rw [heq]
  exact allo_spec_expand3_num edges numStates

/-- flatMap congruence over the members of the list. -/
theorem flatMap_congr_mem {α β : Type} {l : List α} {f g : α → List β}
    (h : ∀ a ∈ l, f a = g a) : l.flatMap f = l.flatMap g := by
  induction l with
  | nil => rfl
  | cons a t ih =>
    simp only [List.flatMap_cons]
    rw [h a (by simp), ih (fun x hx => h x (by simp [hx]))]

/-- Unfolding of the final-state loop when every final state differs
from the new final node: each pass only duplicates original edges, so
the result is the originals followed by the per-final-state duplicate
blocks. -/
theorem merge_go_eq (nf : Nat) :
    ∀ (fs : List Nat) (edges : List CEdge), (∀ f ∈ fs, f ≠ nf) →
      merge_go nf edges fs =
        edges ++ fs.flatMap (fun f =>
          (edges.filter (fun e => decide (e.stop = f))).map
            (fun e => ⟨e.start, nf, e.lbl, 1⟩)) := by
  intro fs
  induction fs with
  | nil => intro edges h; simp [merge_go]
  | cons f rest ih =>
    intro edges h
    rw [merge_go]
    rw [ih _ (fun g hg => h g (List.mem_cons_of_mem f hg))]
    have hDnil : ∀ f2 ∈ rest,
        ((edges.filter (fun e => decide (e.stop = f))).map
          (fun e => (⟨e.start, nf, e.lbl, 1⟩ : CEdge))).filter
            (fun e => decide (e.stop = f2)) = [] := by
      intro f2 hf2
      apply List.filter_eq_nil_iff.mpr
      intro d hd
      simp only [List.mem_map] at hd
      obtain ⟨e, _, rfl⟩ := hd
      have : f2 ≠ nf := h f2 (List.mem_cons_of_mem f hf2)
      simp [this.symm]
    have hcong : rest.flatMap (fun f2 =>
          ((edges ++ (edges.filter (fun e => decide (e.stop = f))).map
            (fun e => (⟨e.start, nf, e.lbl, 1⟩ : CEdge))).filter
              (fun e => decide (e.stop = f2))).map
            (fun e => (⟨e.start, nf, e.lbl, 1⟩ : CEdge))) =
        rest.flatMap (fun f2 =>
          (edges.filter (fun e => decide (e.stop = f2))).map
            (fun e => (⟨e.start, nf, e.lbl, 1⟩ : CEdge))) := by
      apply flatMap_congr_mem
      intro f2 hf2
      rw [List.filter_append, hDnil f2 hf2, List.append_nil]
    rw [hcong, List.flatMap_cons, List.append_assoc]

/-- Splitting a filter over membership in f :: rest, with f not in
rest, into the two disjoint filters, up to permutation. -/
theorem filter_disjoint_perm (f : Nat) (rest : List Nat) (hf : f ∉ rest) :
    ∀ (edges : List CEdge),
      (edges.filter (fun e => decide (e.stop ∈ f :: rest))).Perm
        (edges.filter (fun e => decide (e.stop = f)) ++
          edges.filter (fun e => decide (e.stop ∈ rest))) := by
  intro edges
  induction edges with
  | nil => simp
  | cons e es ih =>
    by_cases h1 : e.stop = f
    · have h2 : e.stop ∉ rest := by rw [h1]; exact hf
      rw [List.filter_cons_of_pos (by simp [h1]), List.filter_cons_of_pos (by simp [h1]),
        List.filter_cons_of_neg (by simp [h2]), List.cons_append]
      exact ih.cons e
    · by_cases h2 : e.stop ∈ rest
      · rw [List.filter_cons_of_pos (by simp [h2]), List.filter_cons_of_neg (by simp [h1]),
          List.filter_cons_of_pos (by simp [h2])]
        exact (ih.cons e).trans List.perm_middle.symm
      · rw [List.filter_cons_of_neg (by simp [h1, h2]),
          List.filter_cons_of_neg (by simp [h1]),
          List.filter_cons_of_neg (by simp [h2])]
        exact ih

/-- The duplicate blocks produced per final state are, together, a
permutation of one duplicate per edge ending in any final state,
provided the final states are pairwise distinct. -/
theorem merge_flatMap_perm (edges : List CEdge) (nf : Nat) :
    ∀ (fs : List Nat), fs.Nodup →
      (fs.flatMap (fun f =>
        (edges.filter (fun e => decide (e.stop = f))).map
          (fun e => (⟨e.start, nf, e.lbl, 1⟩ : CEdge)))).Perm
        ((edges.filter (fun e => decide (e.stop ∈ fs))).map
          (fun e => (⟨e.start, nf, e.lbl, 1⟩ : CEdge))) := by
  intro fs
  induction fs with
  | nil => simp
  | cons f rest ih =>
    intro hnd
    rw [List.nodup_cons] at hnd
    rw [List.flatMap_cons]
    refine ((ih hnd.2).append_left _).trans ?_
    rw [← List.map_append]
    exact ((filter_disjoint_perm f rest hnd.1 edges).map _).symm

/-- The no-op test of Fsa._make_single_final_state holds exactly when
the final-state list is the singleton [num - 1]. -/
theorem single_final_cond (num : Nat) (finals : List Nat) :
    (finals.length = 1 ∧ finals.getD 0 0 = num - 1) ↔ finals = [num - 1] := by
  cases finals with
  | nil => simp
  | cons a tl =>
    cases tl with
    | nil => simp [List.getD]
    | cons b t => simp

/-- Claim C3: the final-state merging contract.  For a set of valid
final states (pairwise distinct, each below num_states): if the set is
exactly the singleton num_states - 1 the graph is unchanged; otherwise
num_states is incremented by one and, for every edge whose end node lies
in the final-state set, exactly one duplicate with the same start node
and label but end node num_states - 1 (the new final state) is appended,
the pre-existing edges remaining unchanged as a prefix. -/
theorem make_single_final_state_contract (num : Nat) (finals : List Nat)
    (edges : List CEdge) (hnd : finals.Nodup) (hb : ∀ f ∈ finals, f < num) :
    (finals = [num - 1] → make_single_final_state num finals edges = (num, edges)) ∧
    (finals ≠ [num - 1] →
      (make_single_final_state num finals edges).1 = num + 1 ∧
      ∃ ext, (make_single_final_state num finals edges).2 = edges ++ ext ∧
        ext.Perm ((edges.filter (fun e => decide (e.stop ∈ finals))).map
          (fun e => (⟨e.start, num, e.lbl, 1⟩ : CEdge)))) := by
  constructor
  · intro h
    unfold make_single_final_state
    rw [if_pos ((single_final_cond num finals).mpr h)]
  · intro h
    unfold make_single_final_state
    rw [if_neg (fun hc => h ((single_final_cond num finals).mp hc))]
    refine ⟨rfl, ?_⟩
    have hnum : num + 1 - 1 = num := by omega
    rw [hnum]
    refine ⟨_, merge_go_eq num finals edges
      (fun f hf => by have := hb f hf; omega), ?_⟩
    exact merge_flatMap_perm edges num finals hnd

/-- Concrete edges for the claim C3 witness: final-state set {3, 5} on a
6-state graph, as in the spec example. -/
def c3_wit_edges : List CEdge := [⟨0, 3, CLab.blank, 1⟩, ⟨2, 5, CLab.sym 1, 1⟩]

/-- Witness for claim C3 at the concrete graph: merging final states
{3, 5} of a 6-state graph increments num_states to 7. -/
theorem make_single_final_state_contract_witness :
    (make_single_final_state 6 [3, 5] c3_wit_edges).1 = 6 + 1 :=
  ((make_single_final_state_contract 6 [3, 5] c3_wit_edges (by decide)
    (by decide)).2 (by decide)).1

/-- getD at an in-bounds index is get. -/
theorem getD_eq_get (ls : List Nat) (i : Nat) (h : i < ls.length) :
    ls.getD i 0 = ls.get ⟨i, h⟩ := by
  simp [List.getD_eq_getElem?_getD, List.getElem?_eq_getElem h, List.get_eq_getElem]

/-- Length of a filterMap whose function succeeds on every member. -/
theorem length_filterMap_all_some {α β : Type} (f : α → Option β) :
    ∀ (l : List α), (∀ x ∈ l, (f x).isSome) → (l.filterMap f).length = l.length := by
  intro l
  induction l with
  | nil => intro _; simp
  | cons a t ih =>
    intro h
    rw [List.filterMap_cons]
    rcases hf : f a with _ | b
    · have ha := h a (by simp)
      rw [hf] at ha
      cases ha
    · rw [List.length_cons, ih (fun x hx => h x (by simp [hx]))]
      rfl

/-- Length of a flatMap producing two elements per member. -/
theorem length_flatMap_two {α β : Type} (f : α → List β)
    (hf : ∀ a, (f a).length = 2) :
    ∀ (l : List α), (l.flatMap f).length = 2 * l.length := by
  intro l
  induction l with
  | nil => simp
  | cons a t ih =>
    rw [List.flatMap_cons, List.length_append, hf a, ih, List.length_cons]
    omega

/-- Claim C6 as amended: for a label sequence with no adjacent repeats
whose first label also differs from its last (as in ab), the CTC
builder allocates num_states = 2 * (n + 1) - 1, the edge count before
the final three-state extension is 3n (n skip edges plus 2n blank-stage
edges) rather than the 2 * (n + 1) - 1 the claim asserts, and the
extension then increases num_states by exactly 3. -/
theorem ctc_ab_counts (ls : List Nat) (h1 : ls ≠ [])
    (h2 : List.Chain' (fun a b => a ≠ b) ls)
    (h3 : ls.getD 0 0 ≠ ls.getLastD 0) :
    ctc_num_states_alloc ls = 2 * (ls.length + 1) - 1 ∧
    (ctc_pre_extension ls).length = 3 * ls.length ∧
    ctc_num_states_after_ext ls = ctc_num_states_alloc ls + 3 := by
  refine ⟨rfl, ?_, rfl⟩
  have hchain := List.chain'_iff_get.mp h2
  have hskip : (create_states_from_label_seq_for_ctc ls).length = ls.length := by
    unfold create_states_from_label_seq_for_ctc
    rw [length_filterMap_all_some _ _ ?_, List.length_range]
    intro i hi
    rw [List.mem_range] at hi
    rcases Nat.eq_zero_or_pos i with hz | hp
    · subst hz
      have hcond : ls.getD 0 0 ≠ py_pred ls 0 := by
        rw [py_pred_zero]; exact h3
      rw [if_pos hcond]
      rfl
    · obtain ⟨j, rfl⟩ : ∃ j, i = j + 1 := ⟨i - 1, by omega⟩
      have hne := hchain j (by omega)
      have hcond : ls.getD (j + 1) 0 ≠ py_pred ls (j + 1) := by
        unfold py_pred
        rw [if_neg (by omega : ¬ j + 1 = 0),
          getD_eq_get ls (j + 1) (by omega),
          getD_eq_get ls (j + 1 - 1) (by omega)]
        intro hh
        exact hne hh.symm
      rw [if_pos hcond]
      rfl
  have hblank : (adds_blank_states_for_ctc ls).length = 2 * ls.length := by
    unfold adds_blank_states_for_ctc
    rw [length_flatMap_two
      (fun i => ([⟨2 * i, 2 * i + 1, CLab.blank, 1⟩,
        ⟨2 * i + 1, 2 * i + 2, CLab.sym (ls.getD i 0), 1⟩] : List CEdge))
      (fun a => rfl), List.length_range]
  unfold ctc_pre_extension
  rw [List.length_append, hskip, hblank]
  omega

/-- Witness for claim C6 as amended, at the sequence [0, 1] (ab). -/
theorem ctc_ab_counts_witness :
    (ctc_pre_extension [0, 1]).length = 3 * 2 :=
  ((ctc_ab_counts [0, 1] (by decide) (by simp) (by decide)).2).1

/-- Membership in a unit-step range'. -/
theorem mem_range_one (s n m : Nat) : m ∈ List.range' s n ↔ s ≤ m ∧ m < s + n := by
  rw [List.mem_range']
  constructor
  · rintro ⟨i, hi, rfl⟩
    omega
  · rintro ⟨hl, hr⟩
    exact ⟨m - s, by omega, by omega⟩

/-- A successful self-loop insertion only appends self-loop edges on the
listed states, and leaves every listed state with a self-loop in the
output. -/
theorem adds_loop_go_spec :
    ∀ (states : List Nat) (edges out : List CEdge),
      adds_loop_edges_go edges states = some out →
      (∃ ext, out = edges ++ ext ∧ ∀ e ∈ ext, e.start ∈ states ∧ e.stop = e.start) ∧
      (∀ s ∈ states, ∃ e ∈ out, e.start = s ∧ e.stop = s) := by
  intro states
  induction states with
  | nil =>
    intro edges out h
    simp only [adds_loop_edges_go, Option.some.injEq] at h
    subst h
    exact ⟨⟨[], by simp, by simp⟩, by simp⟩
  | cons s rest ih =>
    intro edges out h
    cases hf : edges.filter (fun e => decide (e.stop = s ∧ e.lbl ≠ CLab.eps)) with
    | nil =>
      rw [adds_loop_edges_go, hf] at h
      cases h
    | cons e0 tl =>
      rw [adds_loop_edges_go, hf] at h
      obtain ⟨⟨ext, hout, hext⟩, hpres⟩ := ih (edges ++ [⟨s, s, e0.lbl, 0⟩]) out h
      constructor
      · refine ⟨⟨s, s, e0.lbl, 0⟩ :: ext, ?_, ?_⟩
        · rw [hout, List.append_assoc]
          rfl
        · intro e he
          rcases List.mem_cons.mp he with rfl | he2
          · exact ⟨List.mem_cons_self s rest, rfl⟩
          · obtain ⟨h1, h2⟩ := hext e he2
            exact ⟨List.mem_cons_of_mem s h1, h2⟩
      · intro t ht
        rcases List.mem_cons.mp ht with rfl | ht2
        · refine ⟨⟨t, t, e0.lbl, 0⟩, ?_, rfl, rfl⟩
          rw [hout]
          exact List.mem_append_left _ (List.mem_append_right _ (by simp))
        · exact hpres t ht2

/-- Final-state merging never removes an edge. -/
theorem merge_go_sub (nf : Nat) :
    ∀ (fs : List Nat) (edges : List CEdge) (e : CEdge), e ∈ edges →
      e ∈ merge_go nf edges fs := by
  intro fs
  induction fs with
  | nil =>
    intro edges e he
    simpa [merge_go] using he
  | cons f rest ih =>
    intro edges e he
    rw [merge_go]
    exact ih _ e (List.mem_append_left _ he)

/-- A property preserved by duplication towards nf holds of every edge
of the merged list once it holds of every input edge. -/
theorem merge_go_pres (nf : Nat) (P : CEdge → Prop)
    (hdup : ∀ e, P e → P ⟨e.start, nf, e.lbl, 1⟩) :
    ∀ (fs : List Nat) (edges : List CEdge), (∀ e ∈ edges, P e) →
      ∀ e ∈ merge_go nf edges fs, P e := by
  intro fs
  induction fs with
  | nil =>
    intro edges h e he
    rw [merge_go] at he
    exact h e he
  | cons f rest ih =>
    intro edges h e he
    rw [merge_go] at he
    refine ih _ ?_ e he
    intro d hd
    rcases List.mem_append.mp hd with hd1 | hd2
    · exact h d hd1
    · simp only [List.mem_map, List.mem_filter] at hd2
      obtain ⟨d0, ⟨hd0, _⟩, rfl⟩ := hd2
      exact hdup d0 (h d0 hd0)

/-- Every edge ending in one of the listed final states is duplicated
towards nf by the merging loop. -/
theorem merge_go_dup (nf : Nat) :
    ∀ (fs : List Nat) (edges : List CEdge) (e : CEdge),
      e ∈ edges → e.stop ∈ fs →
      (⟨e.start, nf, e.lbl, 1⟩ : CEdge) ∈ merge_go nf edges fs := by
  intro fs
  induction fs with
  | nil =>
    intro edges e _ hf
    simp at hf
  | cons f rest ih =>
    intro edges e he hf
    rw [merge_go]
    rcases List.mem_cons.mp hf with hstop | hrest
    · apply merge_go_sub
      apply List.mem_append_right
      simp only [List.mem_map, List.mem_filter]
      exact ⟨e, ⟨he, by simp [hstop]⟩, rfl⟩
    · exact ih _ e (List.mem_append_left _ he) hrest

/-- Bounds on the CTC edge list before loop insertion: every edge is
monotone, starts no later than state 2n + 2 and ends no later than
state 2n + 3. -/
theorem adds_last_state_edges_bound (ls : List Nat) (h : ls ≠ []) :
    ∀ e ∈ adds_last_state_for_ctc ls,
      e.start ≤ e.stop ∧ e.start ≤ 2 * ls.length + 2 ∧ e.stop ≤ 2 * ls.length + 3 := by
  have hn : 1 ≤ ls.length := List.length_pos.mpr h
  intro e he
  simp only [adds_last_state_for_ctc, ctc_pre_extension, List.mem_append] at he
  rcases he with (hskip | hblank) | hlast
  · simp only [create_states_from_label_seq_for_ctc, List.mem_filterMap,
      List.mem_range] at hskip
    obtain ⟨i, hi, hsome⟩ := hskip
    by_cases hc : ls.getD i 0 ≠ py_pred ls i
    · rw [if_pos hc] at hsome
      cases hsome
      dsimp only
      omega
    · rw [if_neg hc] at hsome
      cases hsome
  · simp only [adds_blank_states_for_ctc, List.mem_flatMap, List.mem_range,
      List.mem_cons, List.mem_singleton] at hblank
    obtain ⟨i, hi, hcase⟩ := hblank
    rcases hcase with rfl | rfl | hfalse
    · dsimp only; omega
    · dsimp only; omega
    · cases hfalse
  · simp only [List.mem_cons, List.mem_singleton] at hlast
    rcases hlast with rfl | rfl | rfl | hfalse
    · dsimp only
      simp only [ctc_num_states_alloc]
      omega
    · dsimp only
      simp only [ctc_num_states_alloc]
      omega
    · dsimp only
      simp only [ctc_num_states_alloc]
      omega
    · cases hfalse

/-- For every state below 2n the blank-insertion stage holds an edge
from it to the next state. -/
theorem blank_edge_mem (ls : List Nat) (s : Nat) (hs : s < 2 * ls.length) :
    ∃ ed ∈ adds_blank_states_for_ctc ls, ed.start = s ∧ ed.stop = s + 1 := by
  unfold adds_blank_states_for_ctc
  rcases Nat.even_or_odd s with ⟨i, hi⟩ | ⟨i, hi⟩
  · refine ⟨⟨2 * i, 2 * i + 1, CLab.blank, 1⟩, ?_, by dsimp only; omega,
      by dsimp only; omega⟩
    simp only [List.mem_flatMap, List.mem_range]
    exact ⟨i, by omega, by simp⟩
  · refine ⟨⟨2 * i + 1, 2 * i + 2, CLab.sym (ls.getD i 0), 1⟩, ?_,
      by dsimp only; omega, by dsimp only; omega⟩
    simp only [List.mem_flatMap, List.mem_range]
    exact ⟨i, by omega, by simp⟩

/-- The two closing edges appended by the three-state extension. -/
theorem last3_mem (ls : List Nat) :
    (⟨ctc_num_states_alloc ls, ctc_num_states_alloc ls + 1,
      CLab.sym (ls.getLastD 0), 1⟩ : CEdge) ∈ adds_last_state_for_ctc ls ∧
    (⟨ctc_num_states_alloc ls + 1, ctc_num_states_alloc ls + 2,
      CLab.blank, 1⟩ : CEdge) ∈ adds_last_state_for_ctc ls := by
  unfold adds_last_state_for_ctc
  constructor <;> simp

/-- Claim C1: every graph produced end-to-end by the ASG builder or the
CTC builder from a non-empty label sequence has every edge running from
a lower to a higher (or equal) node, and exactly one of its states, the
final state num_states - 1, has no outgoing edge other than its own
self-loop. -/
theorem asg_ctc_unique_final_invariant (rep nl : Nat) (ls : List Nat)
    (g : Nat × List CEdge) (h : ls ≠ []) :
    (asg_run rep nl ls = some g → unique_final_invariant g) ∧
    (ctc_run ls = some g → unique_final_invariant g) := by
  constructor
  · intro hrun
    simp only [asg_run, Option.map_eq_some'] at hrun
    obtain ⟨es, hloop, hg⟩ := hrun
    subst hg
    simp only [adds_loop_edges] at hloop
    obtain ⟨⟨ext, hout, hext⟩, hpres⟩ := adds_loop_go_spec _ _ _ hloop
    constructor
    · intro e he
      rw [hout] at he
      rcases List.mem_append.mp he with hc | hx
      · simp only [create_states_from_label_for_asg, List.mem_map,
          List.mem_range] at hc
        obtain ⟨i, hi, rfl⟩ := hc
        dsimp only
        omega
      · exact le_of_eq (hext e hx).2.symm
    · intro s hs
      dsimp only at hs ⊢
      constructor
      · intro hself
        by_contra hne
        have hslt : s < (check_for_repetitions_for_asg rep nl ls).length := by omega
        have hc : (⟨s, s + 1,
            CLab.sym ((check_for_repetitions_for_asg rep nl ls).getD s 0), 1⟩ : CEdge) ∈
            create_states_from_label_for_asg (check_for_repetitions_for_asg rep nl ls) := by
          simp only [create_states_from_label_for_asg, List.mem_map, List.mem_range]
          exact ⟨s, hslt, rfl⟩
        have hbad := hself _ (by rw [hout]; exact List.mem_append_left _ hc) rfl
        dsimp only at hbad
        omega
      · intro hseq e he hstart
        rw [hout] at he
        rcases List.mem_append.mp he with hc | hx
        · simp only [create_states_from_label_for_asg, List.mem_map,
            List.mem_range] at hc
          obtain ⟨i, hi, rfl⟩ := hc
          dsimp only at hstart ⊢
          omega
        · rw [(hext e hx).2, hstart]
  · intro hrun
    simp only [ctc_run, Option.map_eq_some'] at hrun
    obtain ⟨e4, hloop, hg⟩ := hrun
    have hn : 1 ≤ ls.length := List.length_pos.mpr h
    have hfb : ctc_final_after_blank ls = 2 * ls.length := by
      simp only [ctc_final_after_blank]
      rw [if_neg (by omega)]
      omega
    have hns : ctc_num_states_after_ext ls = 2 * ls.length + 4 := by
      simp only [ctc_num_states_after_ext, ctc_num_states_alloc]
      omega
    have h43 : 2 * ls.length + 4 - 1 = 2 * ls.length + 3 := by omega
    rw [hns] at hloop
    simp only [make_single_final_state, List.length_cons, List.length_singleton,
      Nat.add_sub_cancel, hns, hfb, h43] at hg
    rw [if_neg (by omega)] at hg
    simp only [adds_loop_edges, h43] at hloop
    obtain ⟨⟨ext, hout, hext⟩, hpres⟩ := adds_loop_go_spec _ _ _ hloop
    have hbase : ∀ e ∈ e4, e.start ≤ 2 * ls.length + 3 ∧ e.start ≤ e.stop := by
      intro e he
      rw [hout] at he
      rcases List.mem_append.mp he with hb | hx
      · obtain ⟨m1, m2, m3⟩ := adds_last_state_edges_bound ls h e hb
        exact ⟨by omega, m1⟩
      · obtain ⟨hsm, hstop⟩ := hext e hx
        rw [mem_range_one] at hsm
        exact ⟨by omega, le_of_eq hstop.symm⟩
    have hR : ∀ e ∈ merge_go (2 * ls.length + 4) e4
        [2 * ls.length, 2 * ls.length + 3],
        e.start ≤ 2 * ls.length + 3 ∧ e.start ≤ e.stop := by
      apply merge_go_pres (2 * ls.length + 4)
        (fun e => e.start ≤ 2 * ls.length + 3 ∧ e.start ≤ e.stop)
      · intro e ⟨p1, _⟩
        refine ⟨?_, ?_⟩ <;> dsimp only <;> omega
      · exact hbase
    have hcov : ∀ s, s ≤ 2 * ls.length + 3 →
        ∃ ed ∈ merge_go (2 * ls.length + 4) e4 [2 * ls.length, 2 * ls.length + 3],
          ed.start = s ∧ s < ed.stop := by
      intro s hsle
      have halloc : ctc_num_states_alloc ls = 2 * ls.length + 1 := by
        simp only [ctc_num_states_alloc]
        omega
      rcases (by omega : s < 2 * ls.length ∨ s = 2 * ls.length ∨
          s = 2 * ls.length + 1 ∨ s = 2 * ls.length + 2 ∨
          s = 2 * ls.length + 3) with h1 | h2 | h3 | h4 | h5
      · obtain ⟨ed, hmem, hst, hsp⟩ := blank_edge_mem ls s h1
        refine ⟨ed, ?_, hst, by omega⟩
        apply merge_go_sub
        rw [hout]
        apply List.mem_append_left
        simp only [adds_last_state_for_ctc, ctc_pre_extension]
        exact List.mem_append_left _ (List.mem_append_right _ hmem)
      · obtain ⟨le, hle, hst, hsp⟩ := hpres (2 * ls.length)
          (by rw [mem_range_one]; omega)
        refine ⟨⟨le.start, 2 * ls.length + 4, le.lbl, 1⟩, ?_,
          by dsimp only; omega, by dsimp only; omega⟩
        apply merge_go_dup _ _ _ _ hle
        rw [hsp]
        exact List.mem_cons_self _ _
      · refine ⟨⟨ctc_num_states_alloc ls, ctc_num_states_alloc ls + 1,
          CLab.sym (ls.getLastD 0), 1⟩, ?_, by dsimp only; omega,
          by dsimp only; omega⟩
        apply merge_go_sub
        rw [hout]
        exact List.mem_append_left _ (last3_mem ls).1
      · refine ⟨⟨ctc_num_states_alloc ls + 1, ctc_num_states_alloc ls + 2,
          CLab.blank, 1⟩, ?_, by dsimp only; omega, by dsimp only; omega⟩
        apply merge_go_sub
        rw [hout]
        exact List.mem_append_left _ (last3_mem ls).2
      · obtain ⟨le, hle, hst, hsp⟩ := hpres (2 * ls.length + 3)
          (by rw [mem_range_one]; omega)
        refine ⟨⟨le.start, 2 * ls.length + 4, le.lbl, 1⟩, ?_,
          by dsimp only; omega, by dsimp only; omega⟩
        apply merge_go_dup _ _ _ _ hle
        rw [hsp]
        exact List.mem_cons_of_mem _ (List.mem_cons_self _ _)
    subst hg
    constructor
    · intro e he
      exact (hR e he).2
    · intro s hs
      dsimp only at hs ⊢
      constructor
      · intro hself
        by_contra hne
        obtain ⟨ed, hmem, hst, hlt⟩ := hcov s (by omega)
        have hbad := hself ed hmem hst
        omega
      · intro hseq e he hstart
        have hPe := hR e he
        exfalso
        omega

/-- The concrete CTC graph for the label sequence [0, 1] (ab). -/
def ctc_graph_ab : Nat × List CEdge := (ctc_run [0, 1]).getD (0, [])

/-- Witness for claim C1: the CTC run on [0, 1] succeeds and its graph
satisfies the invariant. -/
theorem asg_ctc_unique_final_invariant_witness :
    ([0, 1] : List Nat) ≠ [] ∧ unique_final_invariant ctc_graph_ab :=
  ⟨by decide,
    (asg_ctc_unique_final_invariant 2 27 [0, 1] ctc_graph_ab (by decide)).2 (by rfl)⟩
